import Mathlib

/-!
Shallow embedding of the Finance-Analytics core (code/utils.py,
code/fin_dashboard.py, code/savings_entry.py) together with theorems
settling the specification claims about it.  Machine floats are modelled
by exact rationals; dataframe columns become lists of records; fallible
Python code returns Except values.
-/

/-- ASCII lowercasing, modelling the str.lower and str.to_lowercase calls
applied to rule patterns and string field values in apply_label_rules. -/
def lowerStr (s : String) : String := String.mk (s.data.map Char.toLower)

/-- Prefix test on char lists. -/
def listIsPre : List Char → List Char → Bool
  | [], _ => true
  | _ :: _, [] => false
  | a :: as, b :: bs => a == b && listIsPre as bs

/-- Literal substring containment on char lists, modelling polars
str.contains with literal=True. -/
def listHasSub (pat : List Char) : List Char → Bool
  | [] => pat.isEmpty
  | c :: rest => listIsPre pat (c :: rest) || listHasSub pat rest

/-- Literal substring containment on strings. -/
def strContainsSub (s pat : String) : Bool := listHasSub pat.data s.data

/-- Regular-expression abstract syntax for the model of polars
str.contains with literal=False. -/
inductive Rx
  | fail
  | eps
  | chr (c : Char)
  | anyChr
  | cat (a b : Rx)
  | alt (a b : Rx)
  | star (a : Rx)
deriving DecidableEq

/-- Does the expression accept the empty word. -/
def nullableRx : Rx → Bool
  | .fail => false
  | .eps => true
  | .chr _ => false
  | .anyChr => false
  | .cat a b => nullableRx a && nullableRx b
  | .alt a b => nullableRx a || nullableRx b
  | .star _ => true

/-- Brzozowski derivative. -/
def derivRx (c : Char) : Rx → Rx
  | .fail => .fail
  | .eps => .fail
  | .chr d => if c == d then .eps else .fail
  | .anyChr => .eps
  | .cat a b =>
    if nullableRx a then .alt (.cat (derivRx c a) b) (derivRx c b)
    else .cat (derivRx c a) b
  | .alt a b => .alt (derivRx c a) (derivRx c b)
  | .star a => .cat (derivRx c a) (.star a)

/-- Does some prefix of the word match the expression. -/
def matchPreRx (r : Rx) : List Char → Bool
  | [] => nullableRx r
  | c :: cs => nullableRx r || matchPreRx (derivRx c r) cs

/-- Unanchored regex search, the containment semantics of str.contains. -/
def rxSearch (r : Rx) : List Char → Bool
  | [] => matchPreRx r []
  | c :: cs => matchPreRx r (c :: cs) || rxSearch r cs

/-- Characters with no metacharacter role in the modelled regex grammar. -/
def plainRxChar (c : Char) : Bool :=
  !(c == '|' || c == '*' || c == '+' || c == '?' || c == '(' || c == ')' ||
    c == '[' || c == ']' || c == '^' || c == '$' || c == '\\' ||
    c.toNat == 123 || c.toNat == 125)

/-- Postfix repetition operators. -/
def applyPostRx (r : Rx) (c : Char) : Option Rx :=
  if c == '*' then some (.star r)
  else if c == '+' then some (.cat r (.star r))
  else if c == '?' then some (.alt r .eps)
  else none

/-- Greedily consume postfix operators after an atom. -/
def eatPostRx (r : Rx) : List Char → Rx × List Char
  | [] => (r, [])
  | c :: rest =>
    match applyPostRx r c with
    | some r2 => eatPostRx r2 rest
    | none => (r, c :: rest)

/-- Does the concatenation level stop here. -/
def stopSeqRx : List Char → Bool
  | [] => true
  | c :: _ => c == '|' || c == ')'

mutual

/-- Parse one atom of the regex grammar. -/
def parseAtomRx : Nat → List Char → Option (Rx × List Char)
  | 0, _ => none
  | fuel + 1, cs =>
    match cs with
    | [] => none
    | '(' :: rest =>
      match parseAltRx fuel rest with
      | some (r, ')' :: rest2) => some (r, rest2)
      | _ => none
    | '.' :: rest => some (.anyChr, rest)
    | '\\' :: c :: rest => some (.chr c, rest)
    | c :: rest => if plainRxChar c then some (.chr c, rest) else none

/-- Parse a concatenation of atoms. -/
def parseSeqRx : Nat → List Char → Option (Rx × List Char)
  | 0, _ => none
  | fuel + 1, cs =>
    if stopSeqRx cs then some (.eps, cs)
    else
      match parseAtomRx fuel cs with
      | none => none
      | some (r, rest) =>
        match eatPostRx r rest with
        | (r2, rest2) =>
          match parseSeqRx fuel rest2 with
          | some (rs, rest3) => some (.cat r2 rs, rest3)
          | none => none

/-- Parse an alternation. -/
def parseAltRx : Nat → List Char → Option (Rx × List Char)
  | 0, _ => none
  | fuel + 1, cs =>
    match parseSeqRx fuel cs with
    | some (r, '|' :: rest) =>
      match parseAltRx fuel rest with
      | some (r2, rest2) => some (.alt r r2, rest2)
      | none => none
    | some (r, rest) => some (r, rest)
    | none => none

end

/-- Compile a regex pattern; none models a pattern the engine rejects. -/
def compileRx (p : String) : Option Rx :=
  match parseAltRx (3 * p.length + 9) p.data with
  | some (r, []) => some r
  | _ => none

/-- The six comparison operators of the numeric rule grammar in
apply_label_rules. -/
inductive NumOp
  | gt
  | lt
  | ge
  | le
  | eq
  | ne
deriving DecidableEq

/-- The operator spellings, in the alternation order of the source regex. -/
def opChars : NumOp → List Char
  | .ge => ['>', '=']
  | .le => ['<', '=']
  | .eq => ['=', '=']
  | .ne => ['!', '=']
  | .gt => ['>']
  | .lt => ['<']

/-- Leading-operator parse mirroring the alternation
greater-equal, less-equal, equal-equal, bang-equal, greater, less. -/
def parseOpL (cs : List Char) : Option (NumOp × List Char) :=
  match cs with
  | [] => none
  | c1 :: rest1 =>
    match rest1 with
    | c2 :: rest2 =>
      if c1 == '>' && c2 == '=' then some (.ge, rest2)
      else if c1 == '<' && c2 == '=' then some (.le, rest2)
      else if c1 == '=' && c2 == '=' then some (.eq, rest2)
      else if c1 == '!' && c2 == '=' then some (.ne, rest2)
      else if c1 == '>' then some (.gt, rest1)
      else if c1 == '<' then some (.lt, rest1)
      else none
    | [] =>
      if c1 == '>' then some (.gt, [])
      else if c1 == '<' then some (.lt, [])
      else none

/-- Whitespace class used for strip and the regex whitespace escape. -/
def isSpaceChar (c : Char) : Bool := c.isWhitespace

/-- Python str.strip on a char list. -/
def stripChars (cs : List Char) : List Char :=
  ((cs.dropWhile isSpaceChar).reverse.dropWhile isSpaceChar).reverse

/-- Python str.strip on strings. -/
def stripStr (s : String) : String := String.mk (stripChars s.data)

/-- Numeric value of a decimal digit character. -/
def digitVal (c : Char) : Nat := c.toNat - 48

/-- Value of a digit string. -/
def digitsToNat (ds : List Char) : Nat :=
  ds.foldl (fun acc c => 10 * acc + digitVal c) 0

/-- Parse the number part of the numeric rule grammar: one or more digits
with an optional fractional part, and nothing after it. -/
def parseNumTail (cs : List Char) : Option ℚ :=
  let ds := cs.takeWhile Char.isDigit
  let rest := cs.dropWhile Char.isDigit
  if ds.isEmpty then none
  else
    match rest with
    | [] => some (digitsToNat ds : ℚ)
    | '.' :: fs =>
      if fs.isEmpty || !(fs.all Char.isDigit) then none
      else some ((digitsToNat ds : ℚ) + (digitsToNat fs : ℚ) / (10 : ℚ) ^ fs.length)
    | _ => none

/-- The full numeric pattern grammar of apply_label_rules: strip the
pattern, read a comparison operator, optional whitespace, then an
unsigned number reaching the end of the pattern. -/
def numPat (p : String) : Option (NumOp × ℚ) :=
  match parseOpL (stripChars p.data) with
  | some (op, rest) =>
    match parseNumTail (rest.dropWhile isSpaceChar) with
    | some v => some (op, v)
    | none => none
  | none => none

/-- A labeling rule from rules.json. -/
structure Rule where
  field : String
  matchPattern : String
  category : String
  regex : Bool
deriving DecidableEq

/-- A transaction row of the transactions table consumed by
apply_label_rules; nullable columns are options. -/
structure Tx where
  transactionId : Option String
  bookingDate : Option String
  valueDate : Option String
  amount : Option ℚ
  currency : Option String
  remittance : Option String
  internalId : Option String
  category : Option String
deriving DecidableEq

/-- Digit expansion of a proper fraction, most significant digit first. -/
def fracDigitChars : Nat → Nat → Nat → List Char
  | 0, _, _ => []
  | fuel + 1, num, den =>
    if num == 0 then []
    else Char.ofNat (48 + num * 10 / den) :: fracDigitChars fuel (num * 10 % den) den

/-- Decimal digits of a natural number. -/
def natChars : Nat → Nat → List Char
  | 0, _ => []
  | fuel + 1, n =>
    if n < 10 then [Char.ofNat (48 + n)]
    else natChars fuel (n / 10) ++ [Char.ofNat (48 + n % 10)]

/-- Rendering of a float column value as a string, modelling the
cast to Utf8 applied when a rule falls back to string matching on the
amount column. -/
def floatStr (q : ℚ) : String :=
  let sgn := if q < 0 then "-" else ""
  let n := q.num.natAbs
  let d := q.den
  let frac := if n % d == 0 then "0" else String.mk (fracDigitChars 20 (n % d) d)
  sgn ++ String.mk (natChars 30 (n / d)) ++ "." ++ frac

/-- Columns of the transactions dataframe; a rule field outside this list
makes the column lookup fail. -/
def validRuleFields : List String :=
  ["transactionId", "bookingDate", "valueDate", "amount", "currency",
   "remittance", "internalId", "category"]

/-- Does the rule field name an existing column. -/
def fieldValid (f : String) : Bool := validRuleFields.contains f

/-- String rendering of a column value for the string branch; outer none
means the column does not exist, inner none a null cell. -/
def strFieldVal (t : Tx) (f : String) : Option (Option String) :=
  if f == "transactionId" then some t.transactionId
  else if f == "bookingDate" then some t.bookingDate
  else if f == "valueDate" then some t.valueDate
  else if f == "amount" then some (t.amount.map floatStr)
  else if f == "currency" then some t.currency
  else if f == "remittance" then some t.remittance
  else if f == "internalId" then some t.internalId
  else if f == "category" then some t.category
  else none

/-- The compiled predicate of one rule. -/
inductive RuleCond
  | numCmp (op : NumOp) (v : ℚ)
  | strLit (field : String) (pat : String)
  | strRx (field : String) (re : Rx)
deriving DecidableEq

/-- Evaluate a comparison operator on rationals. -/
def opEval (op : NumOp) (a v : ℚ) : Bool :=
  match op with
  | .gt => decide (v < a)
  | .lt => decide (a < v)
  | .ge => decide (v ≤ a)
  | .le => decide (a ≤ v)
  | .eq => decide (a = v)
  | .ne => decide (a ≠ v)

/-- Evaluate a compiled predicate on a transaction; null cells compare to
null and a null mask selects the otherwise branch, hence false. -/
def condEval (t : Tx) : RuleCond → Bool
  | .numCmp op v =>
    match t.amount with
    | none => false
    | some a => opEval op a v
  | .strLit f pat =>
    match strFieldVal t f with
    | some (some s) => strContainsSub (lowerStr s) pat
    | _ => false
  | .strRx f re =>
    match strFieldVal t f with
    | some (some s) => rxSearch re (lowerStr s).data
    | _ => false

/-- Build the string-branch predicate of a rule: lowercase the pattern,
then literal containment or regex search. -/
def strBranch (r : Rule) : Except String RuleCond :=
  if r.regex then
    match compileRx (lowerStr r.matchPattern) with
    | some re => .ok (.strRx r.field re)
    | none => .error ("invalid regex: " ++ r.matchPattern)
  else .ok (.strLit r.field (lowerStr r.matchPattern))

/-- Build the predicate of a rule exactly as the loop body of
apply_label_rules does: the numeric branch fires only for the amount
field with a pattern accepted by the numeric grammar; otherwise the
string branch runs, and an unknown column is an error. -/
def ruleCheck (r : Rule) : Except String RuleCond :=
  if fieldValid r.field then
    if r.field == "amount" then
      match numPat r.matchPattern with
      | some (op, v) => .ok (.numCmp op v)
      | none => strBranch r
    else strBranch r
  else .error ("unknown field: " ++ r.field)

/-- One rule application to one transaction: when the predicate holds the
category is unconditionally overwritten, otherwise kept. -/
def stepTx (r : Rule) (c : RuleCond) (t : Tx) : Tx :=
  if condEval t c then { t with category := some r.category } else t

/-- The rule loop of apply_label_rules over the whole batch. -/
def runRules : List Rule → List Tx → Except String (List Tx)
  | [], ts => .ok ts
  | r :: rs, ts =>
    match ruleCheck r with
    | .error e => .error e
    | .ok c => runRules rs (ts.map (stepTx r c))

/-- The initial overwrite of the category column with null. -/
def clearCat (t : Tx) : Tx := { t with category := none }

/-- apply_label_rules: null out the category column, then run every rule
in list order over the batch. -/
def applyLabelRules (ts : List Tx) (rules : List Rule) : Except String (List Tx) :=
  runRules rules (ts.map clearCat)

/-- The predicate of a rule as a pure function of a transaction; an
invalid rule matches nothing. -/
def condOf (r : Rule) (t : Tx) : Bool :=
  match ruleCheck r with
  | .ok c => condEval t c
  | .error _ => false

/-- Per-transaction view of the rule loop. -/
def txFold (rules : List Rule) (t : Tx) : Tx :=
  rules.foldl
    (fun acc r =>
      match ruleCheck r with
      | .ok c => stepTx r c acc
      | .error _ => acc)
    t

/-- Does the rule build a predicate without error. -/
def checkOK (r : Rule) : Bool :=
  match ruleCheck r with
  | .ok _ => true
  | .error _ => false

/-- A scoped dashboard transaction: calendar month as an absolute month
index, category (nulls already filled with Uncategorized), signed amount. -/
structure ATx where
  month : Nat
  category : String
  amount : ℚ
deriving DecidableEq

/-- The non-transfer subset feeding income and expense figures. -/
def nonTransfer (l : List ATx) : List ATx :=
  l.filter (fun t => !(t.category == "Transfer"))

/-- Net signed amount of one (month, category) group of the non-transfer
rows, the cat_monthly_net table. -/
def catNet (l : List ATx) (m : Nat) (c : String) : ℚ :=
  (((nonTransfer l).filter (fun t => t.month == m && t.category == c)).map (·.amount)).sum

/-- Is the category an income category: case-insensitive containment of
the word income in the category name. -/
def isIncomeCat (c : String) : Bool := strContainsSub (lowerStr c) "income"

/-- The distinct categories with a non-transfer row in the month, the
group keys of cat_monthly_net restricted to that month. -/
def monthCats (l : List ATx) (m : Nat) : List String :=
  (((nonTransfer l).filter (fun t => t.month == m)).map (·.category)).dedup

/-- monthly_income of the dashboard: sum of the per-category nets of the
month over the income categories. -/
def monthlyIncome (l : List ATx) (m : Nat) : ℚ :=
  (((monthCats l m).filter isIncomeCat).map (catNet l m)).sum

/-- monthly_expense of the dashboard: sum of the per-category nets of the
month over the remaining categories. -/
def monthlyExpense (l : List ATx) (m : Nat) : ℚ :=
  (((monthCats l m).filter (fun c => !isIncomeCat c)).map (catNet l m)).sum

/-- monthly_cat_expense of the dashboard trend pipeline: the negated net
of the (month, category) group. -/
def catMonthlyExpense (l : List ATx) (m : Nat) (c : String) : ℚ :=
  -(catNet l m c)

/-- The per-category spent figure of the budget table for the selected
month: the negated net of that category in that month. -/
def monthSpentFor (l : List ATx) (m : Nat) (c : String) : ℚ :=
  -(catNet l m c)

/-- Earliest month with a non-transfer row, the minimum of the pivot
index. -/
def startMonth (l : List ATx) : Option Nat :=
  ((nonTransfer l).map (·.month)).min?

/-- The complete month range of the reindexed pivot, from the first month
with data through the month before the report month. -/
def fullIdx (s p : Nat) : List Nat := List.range' s (p + 1 - s)

/-- avg_prev3 of the trend table: mean of the last min(3, length) entries
of the complete zero-filled expense series of the category. -/
def avgPrev3 (l : List ATx) (report : Nat) (c : String) : ℚ :=
  match startMonth l with
  | none => 0
  | some s =>
    let idx := fullIdx s (report - 1)
    let w := min 3 idx.length
    ((idx.drop (idx.length - w)).map (fun m => catMonthlyExpense l m c)).sum / (w : ℚ)

/-- curr_expense of the trend table. -/
def currExpense (l : List ATx) (report : Nat) (c : String) : ℚ :=
  catMonthlyExpense l report c

/-- pct_change as the trend table produces it: the table is the inner
merge of curr_exp with prev3_avgs, so a category carries a pct_change
value only when it has a non-transfer row in the report month; the value
has the zero guard of the source, and every other category has none. -/
def pctChangeRow (l : List ATx) (report : Nat) (c : String) : Option ℚ :=
  if c ∈ monthCats l report then
    some (if avgPrev3 l report c = 0 then 0
      else (currExpense l report c - avgPrev3 l report c) / avgPrev3 l report c * 100)
  else none

/-- A canonical savings-ledger row. -/
structure SRow where
  bookingDate : String
  partner : String
  partnerIBAN : String
  remittance : String
  purpose : String
  amount : ℚ
deriving DecidableEq

/-- The composite dedupe key of _append_row: the pipe-join of booking
date, partner, remittance and the amount rendered as a string. -/
def rowKey (r : SRow) : String :=
  r.bookingDate ++ "|" ++ r.partner ++ "|" ++ r.remittance ++ "|" ++ floatStr r.amount

/-- Drop every row whose key was already seen. -/
def dedupRowsAux (seen : List String) : List SRow → List SRow
  | [] => []
  | r :: rest =>
    if rowKey r ∈ seen then dedupRowsAux seen rest
    else r :: dedupRowsAux (rowKey r :: seen) rest

/-- Collapse rows with a duplicate composite key, keeping the first
occurrence. -/
def dedupRows (rows : List SRow) : List SRow := dedupRowsAux [] rows

/-- Date order on rows. -/
def byDate (a b : SRow) : Prop := a.bookingDate ≤ b.bookingDate

instance : DecidableRel byDate :=
  fun a b => inferInstanceAs (Decidable (a.bookingDate ≤ b.bookingDate))

instance : IsTotal SRow byDate := ⟨fun a b => le_total a.bookingDate b.bookingDate⟩

instance : IsTrans SRow byDate := ⟨fun _ _ _ h1 h2 => le_trans h1 h2⟩

/-- Ascending date sort of the ledger. -/
def sortByDate (rows : List SRow) : List SRow := List.insertionSort byDate rows

/-- _append_row on the stored row list: append the new row, collapse
duplicate composite keys keeping the first occurrence, sort by date. -/
def appendRow (rows : List SRow) (r : SRow) : List SRow :=
  sortByDate (dedupRows (rows ++ [r]))

/-- Remove every whitespace character. -/
def removeAllWS (cs : List Char) : List Char := cs.filter (fun c => !isSpaceChar c)

/-- Python replace of every dot by nothing. -/
def dropDots (cs : List Char) : List Char := cs.filter (fun c => !(c == '.'))

/-- Python replace of every comma by a dot. -/
def commaToDot (cs : List Char) : List Char :=
  cs.map (fun c => if c == ',' then '.' else c)

/-- Python float() on the decimal fragment the normalizer produces:
optional sign, digits, optional fractional part. -/
def parsePyFloat (cs : List Char) : Option ℚ :=
  match cs with
  | '-' :: r => (parsePyFloatMag r).map (fun q => -q)
  | '+' :: r => parsePyFloatMag r
  | r => parsePyFloatMag r
where
  parsePyFloatMag (r : List Char) : Option ℚ :=
    let ds := r.takeWhile Char.isDigit
    let rest := r.dropWhile Char.isDigit
    match rest with
    | [] => if ds.isEmpty then none else some (digitsToNat ds : ℚ)
    | '.' :: fs =>
      if fs.all Char.isDigit && !(ds.isEmpty && fs.isEmpty) then
        some ((digitsToNat ds : ℚ) + (digitsToNat fs : ℚ) / (10 : ℚ) ^ fs.length)
      else none
    | _ => none

/-- _normalize_amount_str: strip, require non-empty, drop all whitespace,
remove every dot, turn commas into dots, then parse as a float. -/
def normalizeAmountStr (val : Option String) : Except String ℚ :=
  match val with
  | none => .error "Amount is required."
  | some v =>
    let s0 := stripChars v.data
    if s0.isEmpty then .error "Amount is required."
    else
      let s1 := commaToDot (dropDots (removeAllWS s0))
      if s1 == ['.'] || s1.isEmpty then .error "Invalid amount."
      else
        match parsePyFloat s1 with
        | some q => .ok q
        | none => .error "could not convert string to float"

/-- The direction flag applied in add_or_clear: OUT forces the stored
amount negative, anything else forces it positive. -/
def signedAmount (direction : String) (q : ℚ) : ℚ :=
  if direction == "OUT" then -|q| else |q|

deriving instance DecidableEq for Except

/-- Except success test. -/
def isOkE {ε α : Type} : Except ε α → Bool
  | .ok _ => true
  | .error _ => false

/-- Equality of every transaction column except the category column, the
only column classification writes. -/
def sameBase (a b : Tx) : Prop :=
  a.transactionId = b.transactionId ∧ a.bookingDate = b.bookingDate ∧
  a.valueDate = b.valueDate ∧ a.amount = b.amount ∧ a.currency = b.currency ∧
  a.remittance = b.remittance ∧ a.internalId = b.internalId

theorem sameBase_refl (a : Tx) : sameBase a a :=
  ⟨rfl, rfl, rfl, rfl, rfl, rfl, rfl⟩

theorem sameBase_trans {a b c : Tx} (h1 : sameBase a b) (h2 : sameBase b c) :
    sameBase a c := by
  obtain ⟨x1, x2, x3, x4, x5, x6, x7⟩ := h1
  obtain ⟨y1, y2, y3, y4, y5, y6, y7⟩ := h2
  exact ⟨x1.trans y1, x2.trans y2, x3.trans y3, x4.trans y4, x5.trans y5,
    x6.trans y6, x7.trans y7⟩

theorem stepTx_sameBase (r : Rule) (c : RuleCond) (t : Tx) :
    sameBase (stepTx r c t) t := by
  unfold stepTx
  split
  · exact ⟨rfl, rfl, rfl, rfl, rfl, rfl, rfl⟩
  · exact sameBase_refl t

theorem clearCat_sameBase (t : Tx) : sameBase (clearCat t) t :=
  ⟨rfl, rfl, rfl, rfl, rfl, rfl, rfl⟩

theorem tx_eq_of_sameBase {a b : Tx} (h : sameBase a b) :
    a = { b with category := a.category } := by
  obtain ⟨h1, h2, h3, h4, h5, h6, h7⟩ := h
  cases a
  cases b
  simp_all

theorem strFieldVal_sameBase {a b : Tx} (h : sameBase a b) {f : String}
    (hf : f ≠ "category") : strFieldVal a f = strFieldVal b f := by
  obtain ⟨h1, h2, h3, h4, h5, h6, h7⟩ := h
  unfold strFieldVal
  split_ifs <;> simp_all

theorem ruleCheck_shape {r : Rule} {c : RuleCond} (h : ruleCheck r = .ok c) :
    (∃ op v, c = .numCmp op v) ∨ (∃ p, c = .strLit r.field p) ∨
    (∃ re, c = .strRx r.field re) := by
  unfold ruleCheck at h
  by_cases hv : fieldValid r.field
  · rw [if_pos hv] at h
    have hstr : ∀ c', strBranch r = .ok c' →
        (∃ p, c' = .strLit r.field p) ∨ (∃ re, c' = .strRx r.field re) := by
      intro c' h'
      unfold strBranch at h'
      by_cases hre : r.regex
      · rw [if_pos hre] at h'
        cases hcp : compileRx (lowerStr r.matchPattern) with
        | none => rw [hcp] at h'; cases h'
        | some re => rw [hcp] at h'; cases h'; exact Or.inr ⟨re, rfl⟩
      · rw [if_neg hre] at h'
        cases h'
        exact Or.inl ⟨lowerStr r.matchPattern, rfl⟩
    by_cases ha : r.field == "amount"
    · rw [if_pos ha] at h
      cases hnp : numPat r.matchPattern with
      | some p =>
        rw [hnp] at h
        cases h
        exact Or.inl ⟨p.1, p.2, rfl⟩
      | none =>
        rw [hnp] at h
        exact Or.inr (hstr c h)
    · rw [if_neg ha] at h
      exact Or.inr (hstr c h)
  · rw [if_neg hv] at h
    cases h

theorem condOf_sameBase {a b : Tx} (h : sameBase a b) {r : Rule}
    (hf : r.field ≠ "category") : condOf r a = condOf r b := by
  unfold condOf
  cases hc : ruleCheck r with
  | error e => rfl
  | ok c =>
    rcases ruleCheck_shape hc with ⟨op, v, rfl⟩ | ⟨p, rfl⟩ | ⟨re, rfl⟩
    · simp only [condEval, h.2.2.2.1]
    · simp only [condEval, strFieldVal_sameBase h hf]
    · simp only [condEval, strFieldVal_sameBase h hf]

theorem ruleCheck_ok_field {r : Rule} {c : RuleCond} (h : ruleCheck r = .ok c) :
    fieldValid r.field = true := by
  by_cases hv : fieldValid r.field
  · exact hv
  · unfold ruleCheck at h
    rw [if_neg hv] at h
    cases h

theorem txFold_cons (r : Rule) (rs : List Rule) (c : RuleCond)
    (hc : ruleCheck r = .ok c) (t : Tx) :
    txFold (r :: rs) t = txFold rs (stepTx r c t) := by
  simp [txFold, hc]

theorem txFold_sameBase (rules : List Rule) (t : Tx) :
    sameBase (txFold rules t) t := by
  induction rules generalizing t with
  | nil => exact sameBase_refl t
  | cons r rs ih =>
    cases hc : ruleCheck r with
    | error e =>
      have : txFold (r :: rs) t = txFold rs t := by simp [txFold, hc]
      rw [this]
      exact ih t
    | ok c =>
      rw [txFold_cons r rs c hc t]
      exact sameBase_trans (ih (stepTx r c t)) (stepTx_sameBase r c t)

theorem runRules_ok (rules : List Rule) (h : ∀ r ∈ rules, checkOK r = true) :
    ∀ ts : List Tx, runRules rules ts = .ok (ts.map (txFold rules)) := by
  induction rules with
  | nil =>
    intro ts
    have hmap : ts.map (txFold []) = ts := by
      have : txFold [] = fun t => t := by
        funext t
        rfl
      rw [this, List.map_id']
    rw [hmap]
    rfl
  | cons r rs ih =>
    intro ts
    have hr : checkOK r = true := h r (List.mem_cons_self r rs)
    unfold checkOK at hr
    cases hc : ruleCheck r with
    | error e => rw [hc] at hr; cases hr
    | ok c =>
      have hstep : runRules (r :: rs) ts = runRules rs (ts.map (stepTx r c)) := by
        simp [runRules, hc]
      rw [hstep, ih (fun r' hr' => h r' (List.mem_cons_of_mem r hr')), List.map_map]
      congr 1
      apply List.map_congr_left
      intro t _
      exact (txFold_cons r rs c hc t).symm

theorem txFold_category (rules : List Rule)
    (h : ∀ r' ∈ rules, checkOK r' = true ∧ r'.field ≠ "category") (t : Tx) :
    ∀ t0 : Tx, sameBase t0 t →
      (txFold rules t0).category =
        ((rules.reverse.find? fun r => condOf r t).map fun r => some r.category).getD
          t0.category := by
  induction rules with
  | nil =>
    intro t0 _
    rfl
  | cons r rs ih =>
    intro t0 hsb
    obtain ⟨hok, hnc⟩ := h r (List.mem_cons_self r rs)
    unfold checkOK at hok
    cases hc : ruleCheck r with
    | error e => rw [hc] at hok; cases hok
    | ok c =>
      rw [txFold_cons r rs c hc t0]
      have hsb2 : sameBase (stepTx r c t0) t :=
        sameBase_trans (stepTx_sameBase r c t0) hsb
      rw [ih (fun r' hr' => h r' (List.mem_cons_of_mem r hr')) (stepTx r c t0) hsb2]
      rw [List.reverse_cons, List.find?_append]
      cases hfind : rs.reverse.find? (fun r' => condOf r' t) with
      | some rr => simp [Option.or]
      | none =>
        have hcond : condOf r t0 = condOf r t := condOf_sameBase hsb hnc
        have hcondEval : condEval t0 c = condOf r t0 := by
          unfold condOf
          rw [hc]
        by_cases hm : condOf r t = true
        · have hstep : stepTx r c t0 = { t0 with category := some r.category } := by
            unfold stepTx
            rw [if_pos]
            rw [hcondEval, hcond, hm]
          rw [hstep]
          simp [List.find?, hm, Option.or]
        · have hm' : condOf r t = false := by
            cases hb : condOf r t
            · rfl
            · exact absurd hb hm
          have hstep : stepTx r c t0 = t0 := by
            unfold stepTx
            rw [if_neg]
            rw [hcondEval, hcond, hm']
            exact Bool.false_ne_true
          rw [hstep]
          simp [List.find?, hm', Option.or]

theorem runRules_error (rules : List Rule) (rb : Rule) (hmem : rb ∈ rules)
    (hbad : fieldValid rb.field = false) :
    ∀ ts : List Tx, isOkE (runRules rules ts) = false := by
  induction rules with
  | nil => cases hmem
  | cons r rs ih =>
    intro ts
    cases hc : ruleCheck r with
    | error e => simp [runRules, hc, isOkE]
    | ok c =>
      rcases List.mem_cons.1 hmem with rfl | hmem2
      · rw [ruleCheck_ok_field hc] at hbad
        cases hbad
      · have hstep : runRules (r :: rs) ts = runRules rs (ts.map (stepTx r c)) := by
          simp [runRules, hc]
        rw [hstep]
        exact ih hmem2 (ts.map (stepTx r c))

def txCoffee : Tx :=
  ⟨some "t1", some "2024-02-01", some "2024-02-01", some (-4), some "EUR",
   some "coffee shop", none, none⟩

def ruleCoffee : Rule := ⟨"remittance", "coffee", "Food", false⟩

def ruleShop : Rule := ⟨"remittance", "shop", "Shopping", false⟩

/-- C1: classify assigns each transaction the category of the last rule in
list order whose predicate matches it; later rules unconditionally
overwrite matches of earlier rules. -/
theorem classify_last_rule_wins (rules : List Rule) (ts : List Tx)
    (h : ∀ r ∈ rules, checkOK r = true ∧ r.field ≠ "category") :
    applyLabelRules ts rules =
      .ok (ts.map fun t =>
        { t with category := (rules.reverse.find? fun r => condOf r t).map Rule.category }) := by
  unfold applyLabelRules
  rw [runRules_ok rules (fun r hr => (h r hr).1), List.map_map]
  congr 1
  apply List.map_congr_left
  intro t _
  have hsb : sameBase (txFold rules (clearCat t)) t :=
    sameBase_trans (txFold_sameBase rules (clearCat t)) (clearCat_sameBase t)
  rw [Function.comp_apply, tx_eq_of_sameBase hsb,
    txFold_category rules h t (clearCat t) (clearCat_sameBase t)]
  cases hfind : rules.reverse.find? fun r => condOf r t <;> simp [clearCat]

/-- Witness for C1 at the rule pair of the claim: the transaction with
remittance coffee shop ends as Shopping, and as Food with the rules
reversed. -/
theorem classify_last_rule_wins_w :
    (∀ r ∈ [ruleCoffee, ruleShop], checkOK r = true ∧ r.field ≠ "category") ∧
    applyLabelRules [txCoffee] [ruleCoffee, ruleShop] =
      .ok [{ txCoffee with category := some "Shopping" }] ∧
    applyLabelRules [txCoffee] [ruleShop, ruleCoffee] =
      .ok [{ txCoffee with category := some "Food" }] := by
  refine ⟨by decide, ?_, ?_⟩
  · exact (classify_last_rule_wins [ruleCoffee, ruleShop] [txCoffee] (by decide)).trans
      (by decide)
  · exact (classify_last_rule_wins [ruleShop, ruleCoffee] [txCoffee] (by decide)).trans
      (by decide)

/-- C8: for a well-formed rule set classification returns a result for
every batch, and a transaction matched by no rule ends with a null
category. -/
theorem classify_total_unmatched_none (rules : List Rule) (ts : List Tx)
    (h : ∀ r ∈ rules, checkOK r = true ∧ r.field ≠ "category") :
    applyLabelRules ts rules = .ok (ts.map fun t => txFold rules (clearCat t)) ∧
    ∀ t : Tx, (∀ r ∈ rules, condOf r t = false) →
      (txFold rules (clearCat t)).category = none := by
  constructor
  · unfold applyLabelRules
    rw [runRules_ok rules (fun r hr => (h r hr).1), List.map_map]
    rfl
  · intro t hnone
    rw [txFold_category rules h t (clearCat t) (clearCat_sameBase t)]
    rw [List.find?_eq_none.2 (fun r hr => by
      rw [hnone r (by simpa using hr)]
      exact Bool.false_ne_true)]
    rfl

def txGroceries : Tx :=
  ⟨some "t2", some "2024-03-02", none, none, none, some "groceries", none,
   some "Stale"⟩

/-- Witness for C8: a one-rule set on remittance leaves a non-matching
transaction with a null category, even though it arrived with one. -/
theorem classify_total_unmatched_none_w :
    (∀ r ∈ [ruleCoffee], checkOK r = true ∧ r.field ≠ "category") ∧
    applyLabelRules [txGroceries] [ruleCoffee] =
      .ok [{ txGroceries with category := none }] ∧
    (txFold [ruleCoffee] (clearCat txGroceries)).category = none := by
  have h := classify_total_unmatched_none [ruleCoffee] [txGroceries] (by decide)
  exact ⟨by decide, h.1.trans (by decide), h.2 txGroceries (by decide)⟩

def ruleBadField : Rule := ⟨"foo", "x", "Bad", false⟩

def ruleRent : Rule := ⟨"remittance", "rent", "Housing", false⟩

def txRent : Tx :=
  ⟨some "t3", some "2024-03-03", none, some (-900), none, some "Rent March",
   none, none⟩

/-- C7 counterexample: with a valid rule followed by a rule naming a
missing column, the whole classification call errors out when the bad
rule is reached; the valid rule alone would have classified the
transaction, so classification of the valid rules did not proceed. -/
theorem bad_field_mid_scan_cex :
    applyLabelRules [txRent] [ruleRent, ruleBadField] = .error "unknown field: foo" ∧
    applyLabelRules [txRent] [ruleRent] =
      .ok [{ txRent with category := some "Housing" }] := by
  constructor
  · decide
  · decide

/-- C7 amended: a rule whose field names no column of the transaction
table makes the whole classification call fail once that rule is
reached; no classified output is produced for any rule of the set. -/
theorem bad_field_aborts (rules : List Rule) (ts : List Tx) (rb : Rule)
    (hmem : rb ∈ rules) (hbad : fieldValid rb.field = false) :
    isOkE (applyLabelRules ts rules) = false :=
  runRules_error rules rb hmem hbad (ts.map clearCat)

/-- Witness for the amended C7. -/
theorem bad_field_aborts_w :
    ruleBadField ∈ [ruleRent, ruleBadField] ∧
    fieldValid ruleBadField.field = false ∧
    isOkE (applyLabelRules [txRent] [ruleRent, ruleBadField]) = false := by
  refine ⟨by decide, by decide, ?_⟩
  exact bad_field_aborts [ruleRent, ruleBadField] [txRent] ruleBadField (by decide) (by decide)

theorem dropWhile_spaces (ws rest : List Char)
    (hws : ∀ c ∈ ws, isSpaceChar c = true)
    (hhd : ∀ c cs, rest = c :: cs → isSpaceChar c = false) :
    (ws ++ rest).dropWhile isSpaceChar = rest := by
  induction ws with
  | nil =>
    cases hr : rest with
    | nil => rfl
    | cons c cs =>
      simp [List.dropWhile_cons, hhd c cs hr]
  | cons w ws' ih =>
    have hw : isSpaceChar w = true := hws w (List.mem_cons_self w ws')
    simp only [List.cons_append, List.dropWhile_cons, hw, if_pos]
    exact ih (fun c hc => hws c (List.mem_cons_of_mem w hc))

theorem parseOpL_op (op : NumOp) (ws t : List Char)
    (hws : ∀ c ∈ ws, isSpaceChar c = true) :
    parseOpL (opChars op ++ (ws ++ '-' :: t)) = some (op, ws ++ '-' :: t) := by
  have hne : ∀ c ∈ ws, (c == '=') = false := by
    intro c hc
    cases hcb : c == '='
    · rfl
    · have : c = '=' := by
        exact eq_of_beq hcb
      rw [this] at hc
      exact absurd (hws '=' hc) (by decide)
  cases op
  all_goals cases hw : ws with
  | nil => simp [parseOpL, opChars]
  | cons w ws' =>
    have hne' : (w == '=') = false := hne w (by rw [hw]; exact List.mem_cons_self w ws')
    simp [parseOpL, opChars, hne']

theorem strFieldVal_amount (t : Tx) :
    strFieldVal t "amount" = some (t.amount.map floatStr) := rfl

/-- C9: an amount rule whose pattern carries a negative threshold after
the operator is rejected by the numeric grammar, so the rule runs as the
string branch testing the literal pattern text against the rendered
amount, never as a numeric comparison. -/
theorem amount_negative_pattern_string_branch (r : Rule) (op : NumOp)
    (ws t : List Char) (hf : r.field = "amount")
    (hp : stripChars r.matchPattern.data = opChars op ++ (ws ++ '-' :: t))
    (hws : ∀ c ∈ ws, isSpaceChar c = true) :
    numPat r.matchPattern = none ∧
    ruleCheck r = strBranch r ∧
    (r.regex = false → ∀ tx : Tx, ∀ a : ℚ, tx.amount = some a →
      condOf r tx = strContainsSub (lowerStr (floatStr a)) (lowerStr r.matchPattern)) := by
  have hdw : List.dropWhile isSpaceChar (ws ++ '-' :: t) = '-' :: t :=
    dropWhile_spaces ws ('-' :: t) hws
      (fun c cs hcc => by
        cases hcc
        decide)
  have hnum : numPat r.matchPattern = none := by
    unfold numPat
    rw [hp, parseOpL_op op ws t hws]
    simp [hdw, parseNumTail, List.takeWhile_cons]
  have hcheck : ruleCheck r = strBranch r := by
    unfold ruleCheck
    rw [hf]
    rw [if_pos (by decide), if_pos (by decide), hnum]
  refine ⟨hnum, hcheck, ?_⟩
  intro hreg tx a ha
  have hbr : strBranch r = .ok (.strLit "amount" (lowerStr r.matchPattern)) := by
    unfold strBranch
    rw [hreg, hf]
    simp
  unfold condOf
  rw [hcheck, hbr]
  simp [condEval, strFieldVal_amount, ha]

def ruleNegThreshold : Rule := ⟨"amount", ">-100", "Big", false⟩

def txMinusFifty : Tx := ⟨none, none, none, some (-50), none, none, none, none⟩

/-- Witness for C9: the pattern greater-minus-100 is not a numeric rule;
on an amount of -50 the rule does not match (the literal pattern text is
not a substring of the rendered amount), although the numeric comparison
it resembles would have matched. -/
theorem amount_negative_pattern_string_branch_w :
    numPat ">-100" = none ∧
    condOf ruleNegThreshold txMinusFifty = false ∧
    opEval NumOp.gt (-50) (-100) = true := by
  have h := amount_negative_pattern_string_branch ruleNegThreshold NumOp.gt []
    ("100".data) rfl (by decide) (by decide)
  refine ⟨h.1, ?_, by decide⟩
  rw [h.2.2 rfl txMinusFifty (-50) rfl]
  decide

theorem sum_map_add {α : Type} (l : List α) (f g : α → ℚ) :
    (l.map fun x => f x + g x).sum = (l.map f).sum + (l.map g).sum := by
  induction l with
  | nil => simp
  | cons a t ih =>
    simp [ih]
    ring

theorem sum_single_key (ks : List String) (hnd : ks.Nodup) (x : String) (v : ℚ) :
    (ks.map fun c => if x = c then v else 0).sum = if x ∈ ks then v else 0 := by
  induction ks with
  | nil => simp
  | cons k t ih =>
    rcases List.nodup_cons.1 hnd with ⟨hk, hnd'⟩
    by_cases hx : x = k
    · subst hx
      have hzero : (t.map fun c => if x = c then v else 0).sum = 0 := by
        apply List.sum_eq_zero
        intro y hy
        rcases List.mem_map.1 hy with ⟨c, hc, rfl⟩
        have hbc : ¬ x = c := fun he => hk (he ▸ hc)
        simp [hbc]
      simp [hzero]
    · simp [hx, ih hnd', List.mem_cons]

theorem group_sum (key : ATx → String) (val : ATx → ℚ) (q : String → Bool) :
    ∀ (L : List ATx) (ks : List String), ks.Nodup →
      (∀ x ∈ L, q (key x) = true → key x ∈ ks) →
      ((ks.filter q).map fun c => ((L.filter fun x => key x == c).map val).sum).sum
        = ((L.filter fun x => q (key x)).map val).sum := by
  intro L ks hnd
  induction L with
  | nil =>
    intro _
    apply List.sum_eq_zero
    intro y hy
    rcases List.mem_map.1 hy with ⟨c, _, rfl⟩
    simp
  | cons a t ih =>
    intro hcov
    have hcovt : ∀ x ∈ t, q (key x) = true → key x ∈ ks :=
      fun x hx => hcov x (List.mem_cons_of_mem a hx)
    have hsplit : ∀ c ∈ ks.filter q,
        ((List.filter (fun x => key x == c) (a :: t)).map val).sum
          = (if key a = c then val a else 0)
            + ((t.filter fun x => key x == c).map val).sum := by
      intro c _
      by_cases h : key a = c
      · simp [List.filter_cons, h]
      · simp [List.filter_cons, h]
    rw [List.map_congr_left hsplit, sum_map_add,
      sum_single_key (ks.filter q) (hnd.filter q) (key a) (val a), ih hcovt]
    by_cases hq : q (key a) = true
    · have hmem : key a ∈ ks.filter q :=
        List.mem_filter.2 ⟨hcov a (List.mem_cons_self a t) hq, hq⟩
      simp [List.filter_cons, hq, hmem]
    · have hmem : key a ∉ ks.filter q := by
        intro hmem
        exact hq (List.mem_filter.1 hmem).2
      have hq' : q (key a) = false := by
        cases hb : q (key a)
        · rfl
        · exact absurd hb hq
      simp [List.filter_cons, hq', hmem]

theorem monthly_group_eq (l : List ATx) (m : Nat) (q : String → Bool) :
    (((monthCats l m).filter q).map (catNet l m)).sum
      = ((l.filter fun t =>
          !(t.category == "Transfer") && t.month == m && q t.category).map
            (fun t => t.amount)).sum := by
  have hnd : (monthCats l m).Nodup := List.nodup_dedup _
  have hcov : ∀ x ∈ (nonTransfer l).filter (fun t => t.month == m),
      q x.category = true → x.category ∈ monthCats l m := by
    intro x hx _
    unfold monthCats
    rw [List.mem_dedup]
    exact List.mem_map.2 ⟨x, hx, rfl⟩
  have hmain := group_sum (fun t => t.category) (fun t => t.amount) q
    ((nonTransfer l).filter (fun t => t.month == m)) (monthCats l m) hnd hcov
  have hcat : ∀ c ∈ (monthCats l m).filter q,
      catNet l m c =
        ((((nonTransfer l).filter fun t => t.month == m).filter
          fun x => x.category == c).map (fun t => t.amount)).sum := by
    intro c _
    rw [List.filter_filter]
    unfold catNet
    exact congrArg (fun x => (List.map (fun t : ATx => t.amount) x).sum)
      (List.filter_congr fun t _ => Bool.and_comm _ _)
  rw [List.map_congr_left hcat, hmain]
  unfold nonTransfer
  rw [List.filter_filter, List.filter_filter]
  exact congrArg (fun x => (List.map (fun t : ATx => t.amount) x).sum)
    (List.filter_congr fun t _ => by
      cases hq : q t.category <;> cases hm2 : t.month == m <;>
        cases ht : t.category == "Transfer" <;> simp [hq, hm2, ht])

/-- C2: for every scoped transaction set and month, monthly_income is the
sum of the per-category nets over non-transfer income categories and
monthly_expense the sum over the remaining non-transfer categories;
transfer rows enter neither total.  Equivalently, the grouped totals
equal the direct sums over the matching transactions. -/
theorem monthly_income_expense_split (l : List ATx) (m : Nat) :
    monthlyIncome l m =
      ((l.filter fun t =>
        !(t.category == "Transfer") && t.month == m && isIncomeCat t.category).map
          (fun t => t.amount)).sum ∧
    monthlyExpense l m =
      ((l.filter fun t =>
        !(t.category == "Transfer") && t.month == m && !isIncomeCat t.category).map
          (fun t => t.amount)).sum :=
  ⟨monthly_group_eq l m isIncomeCat, monthly_group_eq l m (fun c => !isIncomeCat c)⟩

def refundMonth : List ATx := [⟨1, "Refunds", 10⟩]

/-- C3: evaluation at a category-month with positive net.  The derived
per-category expense of the source is the plain negation of the net, so
it is -10 here, not the max(-net, 0) = 0 the claim states; the same
negative value feeds the trend series and the budget spent figure. -/
theorem cat_expense_negative_eval :
    catNet refundMonth 1 "Refunds" = 10 ∧
    catMonthlyExpense refundMonth 1 "Refunds" = -10 ∧
    monthSpentFor refundMonth 1 "Refunds" = -10 ∧
    catMonthlyExpense refundMonth 1 "Refunds" ≠
      max (-(catNet refundMonth 1 "Refunds")) 0 := by
  have hnet : catNet refundMonth 1 "Refunds" = 10 := by
    simp [catNet, nonTransfer, refundMonth]
  have hexp : catMonthlyExpense refundMonth 1 "Refunds" = -10 := by
    rw [catMonthlyExpense, hnet]
  have hspent : monthSpentFor refundMonth 1 "Refunds" = -10 := by
    rw [monthSpentFor, hnet]
  refine ⟨hnet, hexp, hspent, ?_⟩
  rw [hnet, hexp]
  norm_num

/-- The complete zero-filled month-by-month expense series of a category
from the first month with data through the month before the report
month. -/
def expenseSeries (l : List ATx) (report s : Nat) (c : String) : List ℚ :=
  (fullIdx s (report - 1)).map fun m => catMonthlyExpense l m c

def trendTxs : List ATx := [⟨1, "Food", -10⟩, ⟨2, "Food", -20⟩]

/-- C4 counterexample: the category Food has prior activity and
avg_prev3 = 15, nonzero, so the claimed formula would give -100 for
report month 3; but Food has no row in month 3, the inner merge leaves
it out of the trend table, and the program produces no pct_change for it
at all. -/
theorem pct_change_missing_cex :
    avgPrev3 trendTxs 3 "Food" = 15 ∧
    (currExpense trendTxs 3 "Food" - avgPrev3 trendTxs 3 "Food")
      / avgPrev3 trendTxs 3 "Food" * 100 = -100 ∧
    pctChangeRow trendTxs 3 "Food" = none := by
  have h1 : startMonth trendTxs = some 1 := by decide
  have hform : avgPrev3 trendTxs 3 "Food" =
      ((expenseSeries trendTxs 3 1 "Food").drop
        ((expenseSeries trendTxs 3 1 "Food").length -
          min 3 (expenseSeries trendTxs 3 1 "Food").length)).sum
        / ((min 3 (expenseSeries trendTxs 3 1 "Food").length : Nat) : ℚ) := by
    simp only [avgPrev3, h1]
    simp only [expenseSeries, List.length_map, ← List.map_drop]
  have hser : expenseSeries trendTxs 3 1 "Food" = [10, 20] := by
    simp [expenseSeries, fullIdx, List.range', catMonthlyExpense, catNet,
      nonTransfer, trendTxs]
  have havg : avgPrev3 trendTxs 3 "Food" = 15 := by
    rw [hform, hser]
    norm_num
  have hcurr : currExpense trendTxs 3 "Food" = 0 := by
    simp [currExpense, catMonthlyExpense, catNet, nonTransfer, trendTxs]
  refine ⟨havg, ?_, ?_⟩
  · rw [havg, hcurr]
    norm_num
  · simp [pctChangeRow, show "Food" ∉ monthCats trendTxs 3 from by decide]

/-- C4 (amended): avg_prev3 is the mean of the last min(3, length)
entries of the complete zero-filled expense series ending the month
before the report month, and a month without activity for the category
contributes a true zero; pct_change exists only for categories with a
non-transfer row in the report month (the inner merge of curr_exp with
prev3_avgs), where it follows the guarded formula, and is absent for
every other category. -/
theorem trailing_avg_trend_table (l : List ATx) (report s : Nat) (c : String)
    (hs : startMonth l = some s) (hlt : s < report) :
    (expenseSeries l report s c).length = report - s ∧
    avgPrev3 l report c =
      ((expenseSeries l report s c).drop
        ((expenseSeries l report s c).length -
          min 3 (expenseSeries l report s c).length)).sum
        / ((min 3 (expenseSeries l report s c).length : Nat) : ℚ) ∧
    (∀ m, (∀ t ∈ l, ¬(t.month = m ∧ t.category = c ∧ t.category ≠ "Transfer")) →
      catMonthlyExpense l m c = 0) ∧
    (c ∈ monthCats l report → avgPrev3 l report c = 0 →
      pctChangeRow l report c = some 0) ∧
    (c ∈ monthCats l report → avgPrev3 l report c ≠ 0 →
      pctChangeRow l report c =
        some ((currExpense l report c - avgPrev3 l report c)
          / avgPrev3 l report c * 100)) ∧
    (c ∉ monthCats l report → pctChangeRow l report c = none) := by
  refine ⟨?_, ?_, ?_, ?_, ?_, ?_⟩
  · simp only [expenseSeries, fullIdx, List.length_map, List.length_range']
    omega
  · simp only [avgPrev3, hs]
    simp only [expenseSeries, List.length_map, ← List.map_drop]
  · intro m hm
    have hfil : List.filter (fun t => t.month == m && t.category == c)
        (nonTransfer l) = [] := by
      rw [List.filter_eq_nil_iff]
      intro t ht hb
      unfold nonTransfer at ht
      obtain ⟨htl, htn⟩ := List.mem_filter.1 ht
      rw [Bool.and_eq_true] at hb
      obtain ⟨hb1, hb2⟩ := hb
      refine hm t htl ⟨eq_of_beq hb1, eq_of_beq hb2, fun he => ?_⟩
      rw [he] at htn
      simp at htn
    simp [catMonthlyExpense, catNet, hfil]
  · intro hmem h0
    simp [pctChangeRow, hmem, h0]
  · intro hmem hne
    simp [pctChangeRow, hmem, hne]
  · intro hmem
    simp [pctChangeRow, hmem]

def trendTxs2 : List ATx := [⟨1, "Food", -10⟩, ⟨2, "Food", -20⟩, ⟨3, "Food", -30⟩]

/-- Witness for the amended C4: with Food active in report month 3 the
trend table carries pct_change (30 - 15) / 15 * 100 = 100 for it over
the window min(3, 2) = 2. -/
theorem trailing_avg_trend_table_w :
    startMonth trendTxs2 = some 1 ∧ 1 < 3 ∧
    "Food" ∈ monthCats trendTxs2 3 ∧
    avgPrev3 trendTxs2 3 "Food" = 15 ∧
    pctChangeRow trendTxs2 3 "Food" = some 100 := by
  have h := trailing_avg_trend_table trendTxs2 3 1 "Food" (by decide) (by decide)
  have hser : expenseSeries trendTxs2 3 1 "Food" = [10, 20] := by
    simp [expenseSeries, fullIdx, List.range', catMonthlyExpense, catNet,
      nonTransfer, trendTxs2]
  have havg : avgPrev3 trendTxs2 3 "Food" = 15 := by
    rw [h.2.1, hser]
    norm_num
  have hcurr : currExpense trendTxs2 3 "Food" = 30 := by
    simp [currExpense, catMonthlyExpense, catNet, nonTransfer, trendTxs2]
  have hpct : pctChangeRow trendTxs2 3 "Food" = some 100 := by
    rw [h.2.2.2.2.1 (by decide) (by rw [havg]; norm_num), havg, hcurr]
    norm_num
  exact ⟨by decide, by decide, by decide, havg, hpct⟩

/-- C5: evaluation of the amount normalizer.  EU-grouped input parses to
1234.56, but plain-decimal input loses its decimal point (every dot is
removed as grouping) and parses to 123456, contradicting the claim and
the docstring that lists plain 1234.56 as an accepted form; the
direction flag alone fixes the stored sign. -/
theorem normalize_amount_eval :
    normalizeAmountStr (some "1.234,56") = .ok (1234.56 : ℚ) ∧
    normalizeAmountStr (some "1234.56") = .ok (123456 : ℚ) ∧
    (123456 : ℚ) ≠ (1234.56 : ℚ) ∧
    signedAmount "OUT" (1234.56 : ℚ) = -(1234.56 : ℚ) ∧
    signedAmount "IN" (-(1234.56 : ℚ)) = (1234.56 : ℚ) := by
  refine ⟨?_, ?_, by norm_num, ?_, ?_⟩
  · have h : normalizeAmountStr (some "1.234,56")
        = .ok ((1234 : ℚ) + (56 : ℚ) / (10 : ℚ) ^ 2) := rfl
    rw [h]
    norm_num
  · rfl
  · show -|(1234.56 : ℚ)| = -(1234.56 : ℚ)
    rw [abs_of_pos (by norm_num : (0 : ℚ) < 1234.56)]
  · show |(-(1234.56 : ℚ))| = (1234.56 : ℚ)
    rw [abs_neg, abs_of_pos (by norm_num : (0 : ℚ) < 1234.56)]

theorem dedupRowsAux_append_mem (r : SRow) :
    ∀ (xs : List SRow) (seen : List String),
      rowKey r ∈ seen ∨ rowKey r ∈ xs.map rowKey →
      dedupRowsAux seen (xs ++ [r]) = dedupRowsAux seen xs := by
  intro xs
  induction xs with
  | nil =>
    intro seen h
    have hseen : rowKey r ∈ seen := by
      rcases h with h | h
      · exact h
      · cases h
    simp [dedupRowsAux, hseen]
  | cons x t ih =>
    intro seen h
    by_cases hx : rowKey x ∈ seen
    · have hstep : dedupRowsAux seen ((x :: t) ++ [r]) = dedupRowsAux seen (t ++ [r]) := by
        simp [dedupRowsAux, hx]
      have hstep2 : dedupRowsAux seen (x :: t) = dedupRowsAux seen t := by
        simp [dedupRowsAux, hx]
      rw [hstep, hstep2]
      apply ih
      rcases h with h | h
      · exact Or.inl h
      · rcases List.mem_cons.1 h with he | h2
        · exact Or.inl (he ▸ hx)
        · exact Or.inr h2
    · have hstep : dedupRowsAux seen ((x :: t) ++ [r])
          = x :: dedupRowsAux (rowKey x :: seen) (t ++ [r]) := by
        simp [dedupRowsAux, hx]
      have hstep2 : dedupRowsAux seen (x :: t)
          = x :: dedupRowsAux (rowKey x :: seen) t := by
        simp [dedupRowsAux, hx]
      rw [hstep, hstep2]
      congr 1
      apply ih
      rcases h with h | h
      · exact Or.inl (List.mem_cons_of_mem _ h)
      · rcases List.mem_cons.1 h with he | h2
        · exact Or.inl (he ▸ List.mem_cons_self _ _)
        · exact Or.inr h2

theorem dedupRowsAux_covers (k : String) :
    ∀ (xs : List SRow) (seen : List String),
      k ∈ xs.map rowKey →
      k ∈ seen ∨ k ∈ (dedupRowsAux seen xs).map rowKey := by
  intro xs
  induction xs with
  | nil =>
    intro seen h
    cases h
  | cons x t ih =>
    intro seen h
    by_cases hx : rowKey x ∈ seen
    · rcases List.mem_cons.1 h with he | h2
      · exact Or.inl (he ▸ hx)
      · simpa [dedupRowsAux, hx] using ih seen h2
    · rcases List.mem_cons.1 h with he | h2
      · refine Or.inr ?_
        simp [dedupRowsAux, hx, he]
      · rcases ih (rowKey x :: seen) h2 with hin | hin
        · rcases List.mem_cons.1 hin with he2 | h3
          · refine Or.inr ?_
            simp [dedupRowsAux, hx, he2]
          · exact Or.inl h3
        · refine Or.inr ?_
          have hstep : dedupRowsAux seen (x :: t)
              = x :: dedupRowsAux (rowKey x :: seen) t := by
            simp [dedupRowsAux, hx]
          rw [hstep, List.map_cons]
          exact List.mem_cons_of_mem _ hin

theorem dedupRowsAux_nodup :
    ∀ (xs : List SRow) (seen : List String),
      ((dedupRowsAux seen xs).map rowKey).Nodup ∧
      ∀ k ∈ (dedupRowsAux seen xs).map rowKey, k ∉ seen := by
  intro xs
  induction xs with
  | nil =>
    intro seen
    exact ⟨List.nodup_nil, by simp [dedupRowsAux]⟩
  | cons x t ih =>
    intro seen
    by_cases hx : rowKey x ∈ seen
    · simpa [dedupRowsAux, hx] using ih seen
    · obtain ⟨hnd, hdisj⟩ := ih (rowKey x :: seen)
      constructor
      · simp only [dedupRowsAux, hx, if_neg, List.map_cons]
        refine List.nodup_cons.2 ⟨?_, hnd⟩
        intro hmem
        exact (hdisj _ hmem) (List.mem_cons_self _ _)
      · intro k hk
        simp only [dedupRowsAux, hx, if_neg, List.map_cons] at hk
        rcases List.mem_cons.1 hk with he | h2
        · exact he ▸ hx
        · exact fun hs => (hdisj k h2) (List.mem_cons_of_mem _ hs)

theorem dedupRowsAux_id :
    ∀ (xs : List SRow) (seen : List String),
      (xs.map rowKey).Nodup →
      (∀ k ∈ xs.map rowKey, k ∉ seen) →
      dedupRowsAux seen xs = xs := by
  intro xs
  induction xs with
  | nil =>
    intro seen _ _
    rfl
  | cons x t ih =>
    intro seen hnd hdisj
    have hx : rowKey x ∉ seen := hdisj _ (by simp)
    rw [List.map_cons] at hnd
    rcases List.nodup_cons.1 hnd with ⟨hxt, hndt⟩
    have hstep : dedupRowsAux seen (x :: t) = x :: dedupRowsAux (rowKey x :: seen) t := by
      simp [dedupRowsAux, hx]
    rw [hstep, ih (rowKey x :: seen) hndt]
    intro k hk
    intro hks
    rcases List.mem_cons.1 hks with he | hs
    · exact hxt (he ▸ hk)
    · exact hdisj k (List.mem_cons_of_mem _ hk) hs

/-- C6: appending the same row twice yields the same stored ledger as
appending it once; the duplicate composite key is collapsed keeping the
first occurrence. -/
theorem appendRow_idem (rows : List SRow) (r : SRow) :
    appendRow (appendRow rows r) r = appendRow rows r := by
  have hkey0 : rowKey r ∈ (rows ++ [r]).map rowKey := by simp
  have hkey1 : rowKey r ∈ (dedupRows (rows ++ [r])).map rowKey := by
    rcases dedupRowsAux_covers (rowKey r) (rows ++ [r]) [] hkey0 with h | h
    · cases h
    · exact h
  have hperm : (sortByDate (dedupRows (rows ++ [r]))).Perm (dedupRows (rows ++ [r])) :=
    List.perm_insertionSort byDate _
  have hkey2 : rowKey r ∈ (appendRow rows r).map rowKey := by
    unfold appendRow
    exact ((hperm.map rowKey).mem_iff).2 hkey1
  have hnd2 : ((appendRow rows r).map rowKey).Nodup := by
    unfold appendRow
    exact ((hperm.map rowKey).symm).nodup (dedupRowsAux_nodup (rows ++ [r]) []).1
  calc appendRow (appendRow rows r) r
      = sortByDate (dedupRows ((appendRow rows r) ++ [r])) := rfl
    _ = sortByDate (dedupRows (appendRow rows r)) := by
        unfold dedupRows
        rw [dedupRowsAux_append_mem r (appendRow rows r) [] (Or.inr hkey2)]
    _ = sortByDate (appendRow rows r) := by
        unfold dedupRows
        rw [dedupRowsAux_id (appendRow rows r) [] hnd2
          (fun k _ => List.not_mem_nil k)]
    _ = appendRow rows r := by
        apply List.Sorted.insertionSort_eq
        exact List.sorted_insertionSort byDate _

def rowPipeA : SRow := ⟨"2024-01-05", "A|B", "", "C", "", 5⟩

def rowPipeB : SRow := ⟨"2024-01-05", "A", "", "B|C", "", 5⟩

/-- C10: the pipe-joined dedupe key collides for distinct rows whose text
fields contain the pipe character, so the later distinct row is silently
dropped as a duplicate. -/
theorem pipe_key_collision :
    rowPipeA ≠ rowPipeB ∧ rowKey rowPipeA = rowKey rowPipeB ∧
    appendRow (appendRow [] rowPipeA) rowPipeB = [rowPipeA] := by
  refine ⟨by decide, by decide, by decide⟩
